import Mathlib

/-!
Verification of the salzweg streaming LZW codec (`src/lzw`).

The development shallowly embeds the Rust sources:
  * `src/lzw/src/io.rs`     — bit-level readers and writers (both bit orders),
  * `src/lzw/src/encoder.rs` — the arena trie and the variable/fixed encoders,
  * `src/lzw/src/decoder.rs` — the variable/fixed decoders.

Machine integers become `Nat` with explicit `% 2 ^ 32` (u32 buffers), `% 2 ^ 16`
(`as u16` casts) and `% 256` (`as u8` casts) at the points where the Rust code
truncates.  Byte sources and sinks become `List Nat`.  Rust's fixed arrays
`prefix/suffix/length` (4096 entries) and the 4091-byte decoding stack become
total functions `Nat → Nat` updated pointwise; every array access whose index
is not statically in range is guarded by the same bound Rust enforces, and a
violated bound produces the distinguished outcome `panicked`, the embedding of
a Rust index/underflow panic.  Fallible operations return `Option` or a
dedicated outcome type.
-/

set_option maxRecDepth 8192

namespace Salzweg

/-- Bit ordering, `Endianness` in `src/lzw/src/lib.rs`. -/
inductive Endianness
  | bigEndian
  | littleEndian
deriving DecidableEq, Repr

/-- Code size increase strategy, `CodeSizeStrategy` in `src/lzw/src/lib.rs`. -/
inductive CodeSizeStrategy
  | default
  | tiff
deriving DecidableEq, Repr

/-- `CodeSizeStrategy::increment` in `src/lzw/src/lib.rs` lines 85-90. -/
def CodeSizeStrategy.increment : CodeSizeStrategy → Nat
  | .default => 0
  | .tiff => 1

/-! ## Bit writers (`src/lzw/src/io.rs` lines 193-324) -/

/-- State of a bit writer: the `cursor` (bits held), the u32 `byte_buffer`, and
the bytes already pushed to the sink. -/
structure Writer where
  cursor : Nat
  buffer : Nat
  out : List Nat
deriving DecidableEq, Repr

/-- The `while self.cursor >= 8` drain loop of `LittleEndianWriter::write`:
emit the low byte (`as u8`), shift the buffer right by 8.  (The offset
pattern `cursor + 8` is the `cursor >= 8` test together with the
`cursor -= 8` decrement.) -/
def drainLE : Nat → Nat → List Nat → Nat × Nat × List Nat
  | cursor + 8, buffer, out => drainLE cursor (buffer >>> 8) (out ++ [buffer % 256])
  | cursor, buffer, out => (cursor, buffer, out)

/-- The `while self.cursor >= 8` drain loop of `BigEndianWriter::write`:
emit the top byte (`(buffer >> 24) as u8`), shift the buffer left by 8. -/
def drainBE : Nat → Nat → List Nat → Nat × Nat × List Nat
  | cursor + 8, buffer, out =>
    drainBE cursor ((buffer <<< 8) % 2 ^ 32) (out ++ [(buffer >>> 24) % 256])
  | cursor, buffer, out => (cursor, buffer, out)

/-- `LittleEndianWriter::write` / `BigEndianWriter::write` (io.rs lines
230-244 and 292-307): mask the data to `amount` bits, or it into the u32
buffer at the cursor position, then drain full bytes. -/
def writeBits : Endianness → Writer → Nat → Nat → Writer
  | .littleEndian, w, data, amount =>
    let buf := (w.buffer ||| (Nat.land data ((1 <<< amount) - 1) <<< w.cursor)) % 2 ^ 32
    let r := drainLE (w.cursor + amount) buf w.out
    ⟨r.1, r.2.1, r.2.2⟩
  | .bigEndian, w, data, amount =>
    let shift := 32 - amount - w.cursor
    let buf := (w.buffer ||| (Nat.land data ((1 <<< amount) - 1) <<< shift)) % 2 ^ 32
    let r := drainBE (w.cursor + amount) buf w.out
    ⟨r.1, r.2.1, r.2.2⟩

/-- `fill` (io.rs lines 247-255 and 310-318): if any bits remain, emit one
final zero-padded byte.  (`flush` only forwards to the sink and is a no-op
on a byte-list sink.) -/
def fillBits : Endianness → Writer → Writer
  | .littleEndian, w => if 0 < w.cursor then ⟨0, 0, w.out ++ [w.buffer % 256]⟩ else w
  | .bigEndian, w => if 0 < w.cursor then ⟨0, 0, w.out ++ [(w.buffer >>> 24) % 256]⟩ else w

/-- `LittleEndianWriter::new` / `BigEndianWriter::new`: empty buffer, cursor 0. -/
def Writer.new : Writer := ⟨0, 0, []⟩

/-! ## Bit readers (`src/lzw/src/io.rs` lines 3-191) -/

/-- State of a bit reader: the `cursor` (valid bits held), the u32
`byte_buffer`, and the bytes not yet pulled from the source. -/
structure Reader where
  cursor : Nat
  buffer : Nat
  input : List Nat
deriving DecidableEq, Repr

/-- The `while self.cursor < amount` refill loop of `LittleEndianReader`:
pull one byte, or it into the buffer at the cursor, add 8 to the cursor.
`none` embeds the `read_exact` failure on an exhausted source (and, for the
buffered `read`, the `read(...) == 0` early return). -/
def refillLE (amount : Nat) : Nat → Nat → List Nat → Option Reader
  | cursor, buffer, input =>
    if cursor < amount then
      match input with
      | [] => none
      | b :: rest => refillLE amount (cursor + 8) ((buffer ||| (b <<< cursor)) % 2 ^ 32) rest
    else some ⟨cursor, buffer, input⟩

/-- The refill loop of `BigEndianReader`: the pulled byte lands at bit
position `24 - cursor` of the u32 buffer. -/
def refillBE (amount : Nat) : Nat → Nat → List Nat → Option Reader
  | cursor, buffer, input =>
    if cursor < amount then
      match input with
      | [] => none
      | b :: rest => refillBE amount (cursor + 8) ((buffer ||| (b <<< (24 - cursor))) % 2 ^ 32) rest
    else some ⟨cursor, buffer, input⟩

/-- `read_one` of both readers (io.rs lines 43-55 and 112-127): refill until
`amount` bits are available, then extract them (low bits for little endian,
top bits for big endian) and advance. -/
def readOne : Endianness → Nat → Reader → Option (Nat × Reader)
  | .littleEndian, amount, r =>
    match refillLE amount r.cursor r.buffer r.input with
    | none => none
    | some r' =>
      some (Nat.land r'.buffer ((1 <<< amount) - 1) % 2 ^ 16,
        ⟨r'.cursor - amount, r'.buffer >>> amount, r'.input⟩)
  | .bigEndian, amount, r =>
    match refillBE amount r.cursor r.buffer r.input with
    | none => none
    | some r' =>
      some (Nat.land (r'.buffer >>> (32 - amount)) ((1 <<< amount) - 1) % 2 ^ 16,
        ⟨r'.cursor - amount, (r'.buffer <<< amount) % 2 ^ 32, r'.input⟩)

/-- One step of `BitReaderIterator::next` (io.rs lines 179-190), which calls
the buffered `read` with a one-element buffer.  The little-endian `read`
(lines 57-77) returns `Ok(0)` when the source is exhausted, which the
iterator turns into end-of-stream; the big-endian `read` (lines 129-148)
calls `read_exact` instead and hence surfaces an I/O error at end of input. -/
inductive IterStep
  | step (code : Nat) (r : Reader)
  | eof
  | ioErr
deriving Repr

/-- Dispatch of `BitReaderIterator::next` over the two reader types. -/
def iterNext : Endianness → Nat → Reader → IterStep
  | .littleEndian, amount, r =>
    match readOne .littleEndian amount r with
    | none => .eof
    | some (c, r') => .step c r'
  | .bigEndian, amount, r =>
    match readOne .bigEndian amount r with
    | none => .ioErr
    | some (c, r') => .step c r'

/-! ## Encoder trie (`src/lzw/src/encoder.rs` lines 54-149) -/

/-- `Node` in encoder.rs: zero, one, or many children (a row of child codes
indexed by the next byte, `0` marking absence). -/
inductive Node
  | noChild
  | oneChild (k : Nat) (index : Nat)
  | manyChildren (children : List Nat)
deriving DecidableEq, Repr

/-- `Tree` in encoder.rs: arena of nodes indexed by code value. -/
structure Tree where
  nodes : List Node
  codeSize : Nat
  codeCount : Nat
  withClearCode : Bool
deriving DecidableEq, Repr

/-- `Tree::new` (encoder.rs lines 75-85); the vector pre-allocation is
irrelevant to the semantics. -/
def Tree.new (codeSize : Nat) (withClearCode : Bool) : Tree :=
  { nodes := [], codeSize := codeSize, codeCount := 1 <<< codeSize,
    withClearCode := withClearCode }

/-- `Tree::reset` (encoder.rs lines 88-95): `2^code_size` empty root entries,
plus two more (CLEAR and EOI) when `with_clear_code`. -/
def Tree.reset (t : Tree) : Tree :=
  { t with nodes :=
      if t.withClearCode then List.replicate ((1 <<< t.codeSize) + 2) Node.noChild
      else List.replicate (1 <<< t.codeSize) Node.noChild }

/-- `Tree::find_word` (encoder.rs lines 98-118).  `self.nodes[prefix_index]`
is embedded with `getD`; the encoder loop below separately models the Rust
index panic when `prefix_index` is out of bounds.  In a `ManyChildren` row a
stored `0` means absent (`child_index > 0` guard). -/
def Tree.findWord (t : Tree) (prefixIndex nextChar : Nat) : Option Nat :=
  match t.nodes.getD prefixIndex .noChild with
  | .noChild => none
  | .oneChild childChar childIndex =>
    if childChar = nextChar then some childIndex else none
  | .manyChildren childIndices =>
    let childIndex := childIndices.getD nextChar 0
    if 0 < childIndex then some childIndex else none

/-- `Tree::add` (encoder.rs lines 121-143): the new code is the arena length
before the push; the parent node is upgraded `NoChild → OneChild →
ManyChildren` and one fresh `NoChild` is pushed. -/
def Tree.add (t : Tree) (prefixIndex k : Nat) : Nat × Tree :=
  let newIndex := t.nodes.length
  let nodes' :=
    match t.nodes.getD prefixIndex .noChild with
    | .noChild => t.nodes.set prefixIndex (.oneChild k newIndex)
    | .oneChild otherK otherIndex =>
      t.nodes.set prefixIndex
        (.manyChildren (((List.replicate t.codeCount 0).set otherK otherIndex).set k newIndex))
    | .manyChildren children =>
      t.nodes.set prefixIndex (.manyChildren (children.set k newIndex))
  (newIndex, { t with nodes := nodes' ++ [Node.noChild] })

/-- `Tree::len` (encoder.rs lines 146-148). -/
def Tree.len (t : Tree) : Nat := t.nodes.length

/-! ## Encoders (`src/lzw/src/encoder.rs`) -/

/-- `EncodingError` in encoder.rs (the `Io` payload is dropped: on a byte-list
source/sink the only I/O failure is end of input). -/
inductive EncodingError
  | io
  | codeSize (size : Nat)
  | unexpectedCode (code : Nat) (codeSize : Nat)
deriving DecidableEq, Repr

/-- State of the variable encoder loop (locals of
`VariableEncoder::inner_encode`, lines 285-296). -/
structure EncState where
  tree : Tree
  writer : Writer
  writeSize : Nat
  sizeIncreaseMask : Nat
  currentPrefix : Nat
deriving DecidableEq, Repr

/-- Result of one iteration of an encoder loop: continue with a new state,
fail with an error, or hit a Rust panic (out-of-bounds arena index). -/
inductive EncStep
  | cont (s : EncState)
  | failed (e : EncodingError)
  | panicked
deriving DecidableEq, Repr

/-- One iteration of the `for k in bytes` loop of
`VariableEncoder::inner_encode` (encoder.rs lines 313-337).  `maxCode` and
`clearCode` are `(1 << code_size) - 1` and `1 << code_size` as computed at
lines 285 and 290.  The `currentPrefix < tree.len` guard embeds the Rust
index panic inside `find_word`/`add` for an out-of-range prefix (reachable
only via an unvalidated first input byte). -/
def encodeStep (e : Endianness) (cs incr : Nat) (s : EncState) (k : Nat) : EncStep :=
  if (1 <<< cs) - 1 < k then .failed (.unexpectedCode k cs)
  else if s.currentPrefix < s.tree.len then
    match s.tree.findWord s.currentPrefix k with
    | some word => .cont { s with currentPrefix := word }
    | none =>
      let indexOfNewEntry := (s.tree.add s.currentPrefix k).1
      let tree' := (s.tree.add s.currentPrefix k).2
      let writer' := writeBits e s.writer s.currentPrefix s.writeSize
      if indexOfNewEntry = s.sizeIncreaseMask then
        if s.writeSize < 12 then
          .cont { tree := tree', writer := writer', writeSize := s.writeSize + 1,
                  sizeIncreaseMask := (1 <<< (s.writeSize + 1)) - incr,
                  currentPrefix := k }
        else
          .cont { tree := tree'.reset,
                  writer := writeBits e writer' (1 <<< cs) 12,
                  writeSize := cs + 1,
                  sizeIncreaseMask := (1 <<< (cs + 1)) - incr,
                  currentPrefix := k }
      else
        .cont { tree := tree', writer := writer', writeSize := s.writeSize,
                sizeIncreaseMask := s.sizeIncreaseMask, currentPrefix := k }
  else .panicked

/-- The whole `for k in bytes` loop; `.cont s` means the loop consumed all
bytes and finished in state `s`. -/
def encodeLoop (e : Endianness) (cs incr : Nat) : EncState → List Nat → EncStep
  | s, [] => .cont s
  | s, k :: rest =>
    match encodeStep e cs incr s k with
    | .cont s' => encodeLoop e cs incr s' rest
    | .failed err => .failed err
    | .panicked => .panicked

/-- Final outcome of an encode call. -/
inductive EncOutcome
  | ok (out : List Nat)
  | failed (e : EncodingError)
  | panicked
deriving DecidableEq, Repr

/-- `VariableEncoder::inner_encode` (encoder.rs lines 273-346): validate the
code size, reset the trie, write CLEAR, consume the first byte unvalidated,
run the loop, then write the pending prefix, EOI, and the padding byte. -/
def VariableEncoder.innerEncode (e : Endianness) (data : List Nat) (codeSize : Nat)
    (strategy : CodeSizeStrategy) : EncOutcome :=
  if codeSize < 2 ∨ 8 < codeSize then .failed (.codeSize codeSize)
  else
    let writeSize := codeSize + 1
    let clearCode := 1 <<< codeSize
    let endOfInformation := clearCode + 1
    let tree := (Tree.new codeSize true).reset
    let writer := writeBits e Writer.new clearCode writeSize
    match data with
    | [] => .ok (fillBits e (writeBits e writer endOfInformation writeSize)).out
    | k :: rest =>
      match encodeLoop e codeSize strategy.increment
          { tree := tree, writer := writer, writeSize := writeSize,
            sizeIncreaseMask := (1 <<< writeSize) - strategy.increment,
            currentPrefix := k } rest with
      | .cont s =>
        .ok (fillBits e (writeBits e (writeBits e s.writer s.currentPrefix s.writeSize)
              endOfInformation s.writeSize)).out
      | .failed err => .failed err
      | .panicked => .panicked

/-- One iteration of the `for k in bytes` loop of
`FixedEncoder::inner_encode` (encoder.rs lines 639-651): no byte validation,
12-bit writes, and no `add` once the table holds 4096 entries. -/
def fixedEncodeStep (e : Endianness) (s : EncState) (k : Nat) : EncStep :=
  if s.currentPrefix < s.tree.len then
    match s.tree.findWord s.currentPrefix k with
    | some word => .cont { s with currentPrefix := word }
    | none =>
      let tree' := if s.tree.len < 4096 then (s.tree.add s.currentPrefix k).2 else s.tree
      EncStep.cont
        { s with tree := tree',
                 writer := writeBits e s.writer s.currentPrefix 12,
                 currentPrefix := k }
  else .panicked

/-- The whole fixed-encoder loop. -/
def fixedEncodeLoop (e : Endianness) : EncState → List Nat → EncStep
  | s, [] => .cont s
  | s, k :: rest =>
    match fixedEncodeStep e s k with
    | .cont s' => fixedEncodeLoop e s' rest
    | .failed err => .failed err
    | .panicked => .panicked

/-- `FixedEncoder::inner_encode` (encoder.rs lines 618-658). -/
def FixedEncoder.innerEncode (e : Endianness) (data : List Nat) : EncOutcome :=
  let tree := (Tree.new 8 false).reset
  match data with
  | [] => .ok (fillBits e Writer.new).out
  | k :: rest =>
    match fixedEncodeLoop e
        { tree := tree, writer := Writer.new, writeSize := 12,
          sizeIncreaseMask := 0, currentPrefix := k } rest with
    | .cont s => .ok (fillBits e (writeBits e s.writer s.currentPrefix 12)).out
    | .failed err => .failed err
    | .panicked => .panicked

/-! ## Decoders (`src/lzw/src/decoder.rs`)

The three parallel tables `prefix`, `suffix`, `length` (4096 entries each) and
the 4091-byte `decoding_stack` are embedded as total functions `Nat → Nat`
updated pointwise; every Rust array access is guarded by the array's bound and
a violated bound (or the `stack_top -= 1` usize underflow) yields the outcome
`panicked`. -/

/-- `DecodingError` in decoder.rs (the `Io` payload is dropped as for the
encoder). -/
inductive DecodingError
  | io
  | codeSize (size : Nat)
  | unexpectedCode (code : Nat)
  | missingClearCode
deriving DecidableEq, Repr

/-- State of the variable decoder loop (locals of
`VariableDecoder::inner_decode`, decoder.rs lines 196-216). -/
structure DecState where
  reader : Reader
  readSize : Nat
  sizeIncreaseMask : Nat
  nextIndex : Nat
  previousCode : Option Nat
  prefixT : Nat → Nat
  suffixT : Nat → Nat
  lengthT : Nat → Nat
  stack : Nat → Nat
  wordLength : Nat
  output : List Nat

/-- The first `wordLength` bytes of the decoding stack,
`&decoding_stack[0..word_length]`. -/
def stackList (stack : Nat → Nat) (wordLength : Nat) : List Nat :=
  (List.range wordLength).map stack

/-- The `while code >= clear_code` expansion loop of the decoders
(decoder.rs lines 255-259 and 603-607): pop the parent chain into the stack
from the top down.  `none` embeds the Rust panics: `stack_top -= 1` underflow
when `stack_top = 0`, a stack write at an index `≥ 4091` (`STACK_MAX_SIZE`),
and a `suffix`/`prefix` read at an index `≥ 4096`.  On success it returns the
updated stack after the final `decoding_stack[0] = code as u8` write. -/
def expandWalk (clearCode : Nat) (suffixT prefixT : Nat → Nat) :
    Nat → Nat → (Nat → Nat) → Option (Nat → Nat)
  | code, stackTop, stack =>
    if clearCode ≤ code then
      match stackTop with
      | 0 => none
      | st + 1 =>
        if 4096 ≤ code then none
        else if 4091 ≤ st then none
        else
          expandWalk clearCode suffixT prefixT (prefixT code) st
            (fun i => if i = st then suffixT code else stack i)
    else some (fun i => if i = 0 then code % 256 else stack i)

/-- Result of one iteration of a decoder loop. -/
inductive DecStepRes
  | cont (s : DecState)
  | finished (out : List Nat)
  | failed (e : DecodingError)
  | panicked

/-- The body of the variable decoder loop after a code has been read
(decoder.rs lines 221-279), parameterized by the already-read `code` and the
post-read reader state.  `clearCode = 1 << code_size` and
`endOfInformation = clearCode + 1` as at lines 209-210.  The guards
`code < 4096`, `wordLength < 4091`, `wordLength' ≤ 4091`, `nextIndex < 4096`
(the explicit `if` at line 267) and `pc < 4096` embed the bounds of the Rust
arrays at each access. -/
def decodeProcess (cs incr : Nat) (s : DecState) (code : Nat) (reader' : Reader) :
    DecStepRes :=
  let clearCode := 1 <<< cs
  if code = clearCode then
    .cont { s with reader := reader', readSize := cs + 1,
                   sizeIncreaseMask := (1 <<< (cs + 1)) - incr,
                   nextIndex := clearCode + 2, previousCode := none }
  else if code = clearCode + 1 then .finished s.output
  else
    match s.previousCode with
    | none =>
      if code < 4096 then
        DecStepRes.cont
          { s with reader := reader', previousCode := some code,
                   output := s.output ++ [s.suffixT code],
                   stack := fun i => if i = 0 then code % 256 else s.stack i,
                   wordLength := 1 }
      else .panicked
    | some pc =>
      if s.nextIndex < code then .failed (.unexpectedCode code)
      else
        let expansion :=
          if code = s.nextIndex then
            if s.wordLength < 4091 then
              some (fun i => if i = s.wordLength then s.stack 0 else s.stack i,
                    s.wordLength + 1)
            else none
          else
            if code < 4096 then
              match expandWalk clearCode s.suffixT s.prefixT code (s.lengthT code) s.stack with
              | some stack' => some (stack', s.lengthT code)
              | none => none
            else none
        match expansion with
        | none => .panicked
        | some (stack', wordLength') =>
          if wordLength' ≤ 4091 then
            if s.nextIndex < 4096 then
              if pc < 4096 then
                let nextIndex' := s.nextIndex + 1
                let bump := nextIndex' = s.sizeIncreaseMask ∧ s.readSize < 12
                DecStepRes.cont
                  { reader := reader',
                    readSize := if bump then s.readSize + 1 else s.readSize,
                    sizeIncreaseMask :=
                      if bump then (1 <<< (s.readSize + 1)) - incr else s.sizeIncreaseMask,
                    nextIndex := nextIndex',
                    previousCode := some code,
                    prefixT := fun i => if i = s.nextIndex then pc else s.prefixT i,
                    suffixT := fun i => if i = s.nextIndex then stack' 0 else s.suffixT i,
                    lengthT := fun i => if i = s.nextIndex then s.lengthT pc + 1 else s.lengthT i,
                    stack := stack', wordLength := wordLength',
                    output := s.output ++ stackList stack' wordLength' }
              else .panicked
            else .failed .missingClearCode
          else .panicked

/-- One full iteration of the variable decoder loop: read one code at the
current read size (an exhausted source is the I/O error of `read_one`'s
`read_exact`), then process it. -/
def decodeStep (e : Endianness) (cs incr : Nat) (s : DecState) : DecStepRes :=
  match readOne e s.readSize s.reader with
  | none => .failed .io
  | some (code, reader') => decodeProcess cs incr s code reader'

/-- A successful little-endian refill neither creates nor destroys bits (it
moves whole bytes of the source into the accumulator) and leaves at least
`amount` bits available. -/
theorem refillLE_measure {amount : Nat} :
    ∀ (input : List Nat) (cursor buffer : Nat) (r' : Reader),
    refillLE amount cursor buffer input = some r' →
    8 * r'.input.length + r'.cursor = 8 * input.length + cursor ∧ amount ≤ r'.cursor := by
  intro input
  induction input with
  | nil =>
    intro cursor buffer r' h
    rw [refillLE] at h
    split at h
    · cases h
    · cases h
      simpa using by omega
  | cons b rest ih =>
    intro cursor buffer r' h
    rw [refillLE] at h
    split at h
    · have := ih _ _ _ h
      simp only [List.length_cons]
      omega
    · cases h
      simpa using by omega

/-- Big-endian analogue of `refillLE_measure`. -/
theorem refillBE_measure {amount : Nat} :
    ∀ (input : List Nat) (cursor buffer : Nat) (r' : Reader),
    refillBE amount cursor buffer input = some r' →
    8 * r'.input.length + r'.cursor = 8 * input.length + cursor ∧ amount ≤ r'.cursor := by
  intro input
  induction input with
  | nil =>
    intro cursor buffer r' h
    rw [refillBE] at h
    split at h
    · cases h
    · cases h
      simpa using by omega
  | cons b rest ih =>
    intro cursor buffer r' h
    rw [refillBE] at h
    split at h
    · have := ih _ _ _ h
      simp only [List.length_cons]
      omega
    · cases h
      simpa using by omega

/-- A successful `read_one` consumes exactly `amount` bits of the source. -/
theorem readOne_measure {e : Endianness} {amount : Nat} {r : Reader} {code : Nat}
    {r' : Reader} (h : readOne e amount r = some (code, r')) :
    8 * r'.input.length + r'.cursor + amount = 8 * r.input.length + r.cursor := by
  cases e <;> simp only [readOne] at h
  · cases hq : refillBE amount r.cursor r.buffer r.input with
    | none => rw [hq] at h; cases h
    | some q =>
      rw [hq] at h
      cases h
      have := refillBE_measure r.input r.cursor r.buffer q hq
      simp only
      omega
  · cases hq : refillLE amount r.cursor r.buffer r.input with
    | none => rw [hq] at h; cases h
    | some q =>
      rw [hq] at h
      cases h
      have := refillLE_measure r.input r.cursor r.buffer q hq
      simp only
      omega

/-- Every `cont` branch of `decodeProcess` stores the post-read reader
unchanged, and changes the read size only to `cs + 1` (on CLEAR) or by a
single increment (on a width bump). -/
theorem decodeProcess_cont {cs incr : Nat} {s : DecState} {code : Nat} {reader' : Reader}
    {s' : DecState} (h : decodeProcess cs incr s code reader' = .cont s') :
    s'.reader = reader' ∧
      (s'.readSize = cs + 1 ∨ s'.readSize = s.readSize ∨ s'.readSize = s.readSize + 1) := by
  simp only [decodeProcess] at h
  split at h
  · cases h; exact ⟨rfl, .inl rfl⟩
  · split at h
    · cases h
    · split at h
      · split at h
        · cases h; exact ⟨rfl, .inr (.inl rfl)⟩
        · cases h
      · split at h
        · cases h
        · split at h
          · cases h
          · split at h
            · split at h
              · split at h
                · cases h
                  refine ⟨rfl, ?_⟩
                  simp only
                  split
                  · exact .inr (.inr rfl)
                  · exact .inr (.inl rfl)
                · cases h
              · cases h
            · cases h

/-- A `cont` result of `decodeStep` comes from a successful read followed by
`decodeProcess`. -/
theorem decodeStep_cont {e : Endianness} {cs incr : Nat} {s s' : DecState}
    (h : decodeStep e cs incr s = .cont s') :
    ∃ code reader', readOne e s.readSize s.reader = some (code, reader') ∧
      decodeProcess cs incr s code reader' = .cont s' := by
  unfold decodeStep at h
  split at h
  · cases h
  · next code reader' heq => exact ⟨code, reader', heq, h⟩

/-- Each continuing iteration of the variable decoder consumes at least one
bit of the source. -/
theorem decodeStep_measure {e : Endianness} {cs incr : Nat} {s s' : DecState}
    (h : decodeStep e cs incr s = .cont s') (hrs : 1 ≤ s.readSize) :
    8 * s'.reader.input.length + s'.reader.cursor <
      8 * s.reader.input.length + s.reader.cursor := by
  obtain ⟨code, reader', hread, hproc⟩ := decodeStep_cont h
  obtain ⟨hr, _⟩ := decodeProcess_cont hproc
  have hm := readOne_measure hread
  rw [hr]
  omega

/-- The read size stays positive across a continuing iteration. -/
theorem decodeStep_readSize {e : Endianness} {cs incr : Nat} {s s' : DecState}
    (h : decodeStep e cs incr s = .cont s') (hrs : 1 ≤ s.readSize) : 1 ≤ s'.readSize := by
  obtain ⟨code, reader', _, hproc⟩ := decodeStep_cont h
  obtain ⟨_, h2⟩ := decodeProcess_cont hproc
  rcases h2 with h2 | h2 | h2 <;> omega

/-- Final outcome of a decode call. -/
inductive DecOutcome
  | ok (out : List Nat)
  | failed (e : DecodingError)
  | panicked
deriving DecidableEq, Repr

/-- The `loop` of `VariableDecoder::inner_decode` (decoder.rs lines 218-280),
followed by the final `into.flush()` (a no-op on a byte-list sink).  The
loop is bounded by an explicit fuel; since every continuing iteration
consumes at least one source bit (`decodeStep_measure`), any fuel exceeding
the bit count of the source gives the exact loop semantics
(`decodeLoopF_fuel`), and `VariableDecoder.innerDecode` passes such a fuel. -/
def decodeLoopF (e : Endianness) (cs incr : Nat) : Nat → DecState → DecOutcome
  | 0, _ => .failed .io
  | fuel + 1, s =>
    match decodeStep e cs incr s with
    | .cont s' => decodeLoopF e cs incr fuel s'
    | .finished out => .ok out
    | .failed err => .failed err
    | .panicked => .panicked

/-- Fuel adequacy: as soon as the fuel exceeds the number of bits the source
can still provide, the result of `decodeLoopF` no longer depends on it, so
the fuel passed by `VariableDecoder.innerDecode` computes the limit of the
Rust `loop`. -/
theorem decodeLoopF_fuel (e : Endianness) (cs incr : Nat) :
    ∀ (fuel : Nat) (s : DecState), 1 ≤ s.readSize →
    8 * s.reader.input.length + s.reader.cursor < fuel →
    decodeLoopF e cs incr fuel s = decodeLoopF e cs incr (fuel + 1) s := by
  intro fuel
  induction fuel with
  | zero => intro s _ h; omega
  | succ fuel ih =>
    intro s hrs h
    show (match decodeStep e cs incr s with
          | .cont s' => decodeLoopF e cs incr fuel s'
          | .finished out => .ok out
          | .failed err => .failed err
          | .panicked => .panicked) =
        (match decodeStep e cs incr s with
          | .cont s' => decodeLoopF e cs incr (fuel + 1) s'
          | .finished out => .ok out
          | .failed err => .failed err
          | .panicked => .panicked)
    cases hstep : decodeStep e cs incr s with
    | cont s' =>
      have hm := decodeStep_measure hstep hrs
      have hrs' := decodeStep_readSize hstep hrs
      exact ih s' hrs' (by omega)
    | finished out => rfl
    | failed err => rfl
    | panicked => rfl

/-- The initial decoder state of `VariableDecoder::inner_decode` (decoder.rs
lines 196-216): zeroed tables with `suffix[i] = i`, `length[i] = 1`
prefilled for `i < 2^code_size` (the `as u8` cast is the identity there since
`2^code_size ≤ 256`), read size `code_size + 1`, next index `CLEAR + 2`. -/
def initDecState (cs incr : Nat) (data : List Nat) : DecState :=
  { reader := ⟨0, 0, data⟩, readSize := cs + 1,
    sizeIncreaseMask := (1 <<< (cs + 1)) - incr,
    nextIndex := (1 <<< cs) + 2, previousCode := none,
    prefixT := fun _ => 0,
    suffixT := fun i => if i < 1 <<< cs then i else 0,
    lengthT := fun i => if i < 1 <<< cs then 1 else 0,
    stack := fun _ => 0, wordLength := 0, output := [] }

/-- `VariableDecoder::inner_decode` (decoder.rs lines 174-285). -/
def VariableDecoder.innerDecode (e : Endianness) (data : List Nat) (codeSize : Nat)
    (strategy : CodeSizeStrategy) : DecOutcome :=
  if codeSize < 2 ∨ 8 < codeSize then .failed (.codeSize codeSize)
  else decodeLoopF e codeSize strategy.increment (8 * data.length + 1)
    (initDecState codeSize strategy.increment data)

/-- The body of the fixed decoder loop after a code has been read
(decoder.rs lines 577-621): like the variable body but with no CLEAR and no
EOI, root alphabet 256, no width bump, and a silently skipped install once
the table is full (no missing-CLEAR error). -/
def fixedProcess (s : DecState) (code : Nat) (reader' : Reader) : DecStepRes :=
  match s.previousCode with
  | none =>
    if code < 4096 then
      DecStepRes.cont
        { s with reader := reader', previousCode := some code,
                 output := s.output ++ [s.suffixT code],
                 stack := fun i => if i = 0 then code % 256 else s.stack i,
                 wordLength := 1 }
    else .panicked
  | some pc =>
    if s.nextIndex < code then .failed (.unexpectedCode code)
    else
      match
        (if code = s.nextIndex then
          if s.wordLength < 4091 then
            some (fun i => if i = s.wordLength then s.stack 0 else s.stack i,
                  s.wordLength + 1)
          else none
        else
          if code < 4096 then
            match expandWalk 256 s.suffixT s.prefixT code (s.lengthT code) s.stack with
            | some stack' => some (stack', s.lengthT code)
            | none => none
          else none) with
      | none => .panicked
      | some (stack', wordLength') =>
        if wordLength' ≤ 4091 then
          if s.nextIndex < 4096 then
            if pc < 4096 then
              DecStepRes.cont
                { s with reader := reader',
                         nextIndex := s.nextIndex + 1,
                         previousCode := some code,
                         prefixT := fun i => if i = s.nextIndex then pc else s.prefixT i,
                         suffixT := fun i => if i = s.nextIndex then stack' 0 else s.suffixT i,
                         lengthT := fun i => if i = s.nextIndex then s.lengthT pc + 1
                                             else s.lengthT i,
                         stack := stack', wordLength := wordLength',
                         output := s.output ++ stackList stack' wordLength' }
            else .panicked
          else
            DecStepRes.cont
              { s with reader := reader', previousCode := some code,
                       stack := stack', wordLength := wordLength',
                       output := s.output ++ stackList stack' wordLength' }
        else .panicked

/-- Every `cont` branch of `fixedProcess` stores the post-read reader. -/
theorem fixedProcess_cont {s : DecState} {code : Nat} {reader' : Reader} {s' : DecState}
    (h : fixedProcess s code reader' = .cont s') : s'.reader = reader' := by
  simp only [fixedProcess] at h
  split at h
  · split at h
    · cases h; rfl
    · cases h
  · split at h
    · cases h
    · split at h
      · cases h
      · split at h
        · split at h
          · split at h
            · cases h; rfl
            · cases h
          · cases h; rfl
        · cases h

/-- A `step` result of the iterator is a successful `read_one`. -/
theorem iterNext_step {e : Endianness} {amount : Nat} {r : Reader} {code : Nat}
    {r' : Reader} (h : iterNext e amount r = .step code r') :
    readOne e amount r = some (code, r') := by
  cases e <;> simp only [iterNext] at h <;> split at h
  · cases h
  · next c rr heq => cases h; exact heq
  · cases h
  · next c rr heq => cases h; exact heq

/-- The `for code in bit_reader.iter(READ_SIZE)` loop of
`FixedDecoder::inner_decode` (decoder.rs lines 574-622) followed by the final
flush: a clean end of the iterator is success, an iterator error is an I/O
error.  Fuel-bounded exactly like `decodeLoopF` (each iteration consumes 12
source bits); `fixedDecodeLoopF_fuel` certifies the bound passed by
`FixedDecoder.innerDecode`. -/
def fixedDecodeLoopF (e : Endianness) : Nat → DecState → DecOutcome
  | 0, _ => .failed .io
  | fuel + 1, s =>
    match iterNext e 12 s.reader with
    | .eof => .ok s.output
    | .ioErr => .failed .io
    | .step code reader' =>
      match fixedProcess s code reader' with
      | .cont s' => fixedDecodeLoopF e fuel s'
      | .finished out => .ok out
      | .failed err => .failed err
      | .panicked => .panicked

/-- Fuel adequacy for the fixed decoder loop. -/
theorem fixedDecodeLoopF_fuel (e : Endianness) :
    ∀ (fuel : Nat) (s : DecState),
    8 * s.reader.input.length + s.reader.cursor < fuel →
    fixedDecodeLoopF e fuel s = fixedDecodeLoopF e (fuel + 1) s := by
  intro fuel
  induction fuel with
  | zero => intro s h; omega
  | succ fuel ih =>
    intro s h
    show (match iterNext e 12 s.reader with
          | .eof => DecOutcome.ok s.output
          | .ioErr => .failed .io
          | .step code reader' =>
            match fixedProcess s code reader' with
            | .cont s' => fixedDecodeLoopF e fuel s'
            | .finished out => .ok out
            | .failed err => .failed err
            | .panicked => .panicked) =
        (match iterNext e 12 s.reader with
          | .eof => DecOutcome.ok s.output
          | .ioErr => .failed .io
          | .step code reader' =>
            match fixedProcess s code reader' with
            | .cont s' => fixedDecodeLoopF e (fuel + 1) s'
            | .finished out => .ok out
            | .failed err => .failed err
            | .panicked => .panicked)
    cases hit : iterNext e 12 s.reader with
    | eof => rfl
    | ioErr => rfl
    | step code reader' =>
      dsimp only
      cases hp : fixedProcess s code reader' with
      | cont s' =>
        have hm := readOne_measure (iterNext_step hit)
        have hr := fixedProcess_cont hp
        exact ih s' (by rw [hr]; omega)
      | finished out => rfl
      | failed err => rfl
      | panicked => rfl

/-- The initial state of `FixedDecoder::inner_decode` (decoder.rs lines
542-572): all 256 byte values prefilled, next index 256, 12-bit reads. -/
def fixedInitDecState (data : List Nat) : DecState :=
  { reader := ⟨0, 0, data⟩, readSize := 12, sizeIncreaseMask := 0,
    nextIndex := 256, previousCode := none,
    prefixT := fun _ => 0,
    suffixT := fun i => if i < 256 then i else 0,
    lengthT := fun i => if i < 256 then 1 else 0,
    stack := fun _ => 0, wordLength := 0, output := [] }

/-- `FixedDecoder::inner_decode` (decoder.rs lines 542-627). -/
def FixedDecoder.innerDecode (e : Endianness) (data : List Nat) : DecOutcome :=
  fixedDecodeLoopF e (8 * data.length + 1) (fixedInitDecState data)

/-! ## Claim theorems -/

/-- Claim C1.  The round-trip law `decode (encode X) = X` FAILS for the
Fixed-12 variant with big-endian bit order: `BigEndianReader::read` uses
`read_exact` where `LittleEndianReader::read` uses a zero-length-tolerant
`read`, so the code iterator of the fixed decoder turns the zero-padded end
of every big-endian stream into an I/O error instead of end-of-stream.
Encoding `[0]` big-endian yields `[0x00, 0x00]`, whose decode fails with
`Io`; the little-endian combination round-trips the same input. -/
theorem c1_fixed_bigendian_roundtrip_fails :
    FixedEncoder.innerEncode .bigEndian [0] = .ok [0x00, 0x00] ∧
    FixedDecoder.innerDecode .bigEndian [0x00, 0x00] = .failed .io ∧
    FixedEncoder.innerEncode .littleEndian [0] = .ok [0x00, 0x00] ∧
    FixedDecoder.innerDecode .littleEndian [0x00, 0x00] = .ok [0] := by decide

set_option maxHeartbeats 2000000 in
/-- Claim C2.  At the zero-padded end of a Fixed-12 stream the code iterator
reports end-of-stream as success only in the little-endian case; the
big-endian `read` (io.rs lines 129-148) refills with `read_exact` and hence
fails with an I/O error once the source is exhausted, so decoding the fixed
encoder's own big-endian output of `[0, 1, 2]` (36 code bits, zero-padded to
5 bytes) ends in `Io` instead of `Ok`, while the little-endian pair
round-trips. -/
theorem c2_fixed_bigendian_eof_io_error :
    FixedEncoder.innerEncode .bigEndian [0, 1, 2] = .ok [0x00, 0x00, 0x01, 0x00, 0x20] ∧
    FixedDecoder.innerDecode .bigEndian [0x00, 0x00, 0x01, 0x00, 0x20] = .failed .io ∧
    FixedEncoder.innerEncode .littleEndian [0, 1, 2] = .ok [0x00, 0x10, 0x00, 0x02, 0x00] ∧
    FixedDecoder.innerDecode .littleEndian [0x00, 0x10, 0x00, 0x02, 0x00] = .ok [0, 1, 2] := by
  decide

/-- Claim C7.  The variable decoder is NOT bounds-safe on malformed input:
for `code_size = 2` the little-endian bytes `[0xB7, 0x01]` carry the codes
`7, 6, 6`.  The unvalidated first code `7` (≥ `next_index = 6`) makes the
install of entry 6 read the never-written `length[7] = 0`, producing
`prefix[6] = 7` with `length[6] = 1`; expanding code `6` then walks the
cycle `6 → 7 → 6` and underflows `stack_top` (`stack_top -= 1` at
`stack_top = 0`, decoder.rs line 256), a panic / out-of-range stack write. -/
theorem c7_stack_overrun_panic :
    VariableDecoder.innerDecode .littleEndian [0xB7, 0x01] 2 .default = .panicked := by decide

/-- Claim C3, counterexample.  The FIRST input byte is never validated
(`bytes.next()` at encoder.rs line 300 bypasses the `k > max_code` check of
the loop): encoding `[8]` with `code_size = 2` succeeds — the byte `8 ≥ 2^2`
is silently masked to the 3-bit code `0` — although the claim requires an
unexpected-byte failure. -/
theorem c3_first_byte_not_validated :
    VariableEncoder.innerEncode .littleEndian [8] 2 .default = .ok [0x44, 0x01] := by decide

/-- Claim C8, counterexample.  A code strictly greater than the next
expected index does NOT always produce the unexpected-code error: the
comparison at decoder.rs line 239 is only reached when a previous code
exists, so a first code `7 > next_index = 6` (bytes `[0x07]`, `code_size =
2`) is accepted and decoding continues past it until the source runs dry
with an I/O error, not `UnexpectedCode 7`. -/
theorem c8_first_code_unvalidated :
    readOne .littleEndian 3 ⟨0, 0, [0x07]⟩ = some (7, ⟨5, 0, []⟩) ∧
    (initDecState 2 0 [0x07]).nextIndex = 6 ∧
    VariableDecoder.innerDecode .littleEndian [0x07] 2 .default = .failed .io := by decide

/-- `getD` on a replicated list always yields the replicated element. -/
theorem getD_replicate {α : Type} {n i : Nat} {a : α} :
    (List.replicate n a).getD i a = a := by
  simp [List.getD]

/-- In the add branch of the variable encoder, when the new entry's index
reaches the bump threshold while the write size is already 12, the pending
code is written at 12 bits, then CLEAR at 12 bits, the trie is fully reset
to its initial prefilled state, the write size returns to `code_size + 1`
and the mask is recomputed for that width (encoder.rs lines 326-335). -/
theorem encodeStep_clear_at_full {e : Endianness} {cs incr : Nat} {s : EncState} {k : Nat}
    (hk : k ≤ (1 <<< cs) - 1)
    (hp : s.currentPrefix < s.tree.len)
    (hfind : s.tree.findWord s.currentPrefix k = none)
    (hlen : s.tree.len = s.sizeIncreaseMask)
    (hw : s.writeSize = 12) :
    encodeStep e cs incr s k = .cont
      { tree := s.tree.reset,
        writer := writeBits e (writeBits e s.writer s.currentPrefix 12) (1 <<< cs) 12,
        writeSize := cs + 1,
        sizeIncreaseMask := (1 <<< (cs + 1)) - incr,
        currentPrefix := k } := by
  have hidx : (s.tree.add s.currentPrefix k).1 = s.tree.len := rfl
  have hreset : (s.tree.add s.currentPrefix k).2.reset = s.tree.reset := rfl
  simp only [encodeStep, hfind, hidx, hlen, hw]
  rw [if_neg (by omega), if_pos (hlen ▸ hp), if_pos trivial, if_neg (by omega), hreset]

/-- In the add branch of the fixed encoder, once the table holds 4096
entries, no entry is added: the trie is left unchanged and the pending code
is still written at 12 bits (encoder.rs lines 645-649). -/
theorem fixedEncodeStep_table_full {e : Endianness} {s : EncState} {k : Nat}
    (hp : s.currentPrefix < s.tree.len)
    (hfind : s.tree.findWord s.currentPrefix k = none)
    (hfull : 4096 ≤ s.tree.len) :
    fixedEncodeStep e s k = .cont
      { s with writer := writeBits e s.writer s.currentPrefix 12, currentPrefix := k } := by
  simp only [fixedEncodeStep, hfind]
  rw [if_pos hp, if_neg (by omega)]

/-- Claim C4.  When the variable encoder's width is already 12 and another
add reaches the bump threshold, it writes the pending code and then CLEAR at
12 bits, fully resets the trie to its initial prefilled state, and restarts
at width `c + 1` (with the mask recomputed), so subsequent codes are written
at `c + 1` bits until the next bump; the fixed encoder instead performs no
add once the table holds 4096 entries and keeps compressing against the
unchanged table. -/
theorem c4_clear_on_full_dictionary :
    (∀ (e : Endianness) (cs incr : Nat) (s : EncState) (k : Nat),
      k ≤ (1 <<< cs) - 1 →
      s.currentPrefix < s.tree.len →
      s.tree.findWord s.currentPrefix k = none →
      s.tree.len = s.sizeIncreaseMask →
      s.writeSize = 12 →
      encodeStep e cs incr s k = .cont
        { tree := s.tree.reset,
          writer := writeBits e (writeBits e s.writer s.currentPrefix 12) (1 <<< cs) 12,
          writeSize := cs + 1,
          sizeIncreaseMask := (1 <<< (cs + 1)) - incr,
          currentPrefix := k }) ∧
    (∀ (e : Endianness) (s : EncState) (k : Nat),
      s.currentPrefix < s.tree.len →
      s.tree.findWord s.currentPrefix k = none →
      4096 ≤ s.tree.len →
      fixedEncodeStep e s k = .cont
        { s with writer := writeBits e s.writer s.currentPrefix 12, currentPrefix := k }) :=
  ⟨fun _ _ _ _ _ hk hp hfind hlen hw => encodeStep_clear_at_full hk hp hfind hlen hw,
   fun _ _ _ hp hfind hfull => fixedEncodeStep_table_full hp hfind hfull⟩

/-- A trie state at the saturation threshold: 4096 entries, all childless
(reached, e.g., right after 4090 adds from a fresh `c = 2` trie). -/
def c4FullTree : Tree :=
  { nodes := List.replicate 4096 Node.noChild, codeSize := 2, codeCount := 4,
    withClearCode := true }

/-- A fixed-encoder trie state with a saturated table. -/
def c4FullTreeFixed : Tree :=
  { nodes := List.replicate 4096 Node.noChild, codeSize := 8, codeCount := 256,
    withClearCode := false }

/-- The saturated tries really hold 4096 entries. -/
theorem c4FullTree_len : c4FullTree.len = 4096 ∧ c4FullTreeFixed.len = 4096 :=
  ⟨List.length_replicate 4096 Node.noChild, List.length_replicate 4096 Node.noChild⟩

/-- All nodes of the saturated tries are childless. -/
theorem c4FullTree_find : c4FullTree.findWord 0 0 = none ∧
    c4FullTreeFixed.findWord 0 0 = none := by
  constructor
  · unfold Tree.findWord
    rw [show c4FullTree.nodes.getD 0 Node.noChild = Node.noChild from getD_replicate]
  · unfold Tree.findWord
    rw [show c4FullTreeFixed.nodes.getD 0 Node.noChild = Node.noChild from getD_replicate]

/-- A variable-encoder state at the saturation threshold with width 12. -/
def c4EncState : EncState :=
  { tree := c4FullTree, writer := Writer.new, writeSize := 12,
    sizeIncreaseMask := 4096, currentPrefix := 0 }

/-- A fixed-encoder state with a saturated table. -/
def c4EncStateFixed : EncState :=
  { tree := c4FullTreeFixed, writer := Writer.new, writeSize := 12,
    sizeIncreaseMask := 0, currentPrefix := 0 }

/-- Witness for C4 at concrete saturated states. -/
theorem c4_clear_on_full_dictionary_witness :
    encodeStep .littleEndian 2 0 c4EncState 0 = .cont
      { tree := c4FullTree.reset,
        writer := writeBits .littleEndian
          (writeBits .littleEndian Writer.new 0 12) (1 <<< 2) 12,
        writeSize := 3, sizeIncreaseMask := (1 <<< 3) - 0, currentPrefix := 0 } ∧
    fixedEncodeStep .littleEndian c4EncStateFixed 0 = .cont
      { tree := c4FullTreeFixed,
        writer := writeBits .littleEndian Writer.new 0 12,
        writeSize := 12, sizeIncreaseMask := 0, currentPrefix := 0 } := by
  constructor
  · exact c4_clear_on_full_dictionary.1 .littleEndian 2 0 c4EncState 0 (by decide)
      (by rw [show c4EncState.tree.len = 4096 from c4FullTree_len.1]; decide)
      c4FullTree_find.1
      c4FullTree_len.1
      rfl
  · exact c4_clear_on_full_dictionary.2 .littleEndian c4EncStateFixed 0
      (by rw [show c4EncStateFixed.tree.len = 4096 from c4FullTree_len.2]; decide)
      c4FullTree_find.2
      (by rw [show c4EncStateFixed.tree.len = 4096 from c4FullTree_len.2])

/-- The root alphabet is never empty. -/
theorem one_shiftLeft_pos (cs : Nat) : 0 < 1 <<< cs := by
  rw [Nat.one_shiftLeft]; exact Nat.two_pow_pos cs

/-- `getD` variant of `List.getElem?_set_self`. -/
theorem getD_set_self {α : Type} {l : List α} {i : Nat} {a d : α} (h : i < l.length) :
    (l.set i a).getD i d = a := by
  simp [List.getD_eq_getElem?_getD, List.getElem?_set_self h]

/-- `getD` variant of `List.getElem?_set_ne`. -/
theorem getD_set_ne {α : Type} {l : List α} {i j : Nat} {a d : α} (h : i ≠ j) :
    (l.set i a).getD j d = l.getD j d := by
  simp [List.getD_eq_getElem?_getD, List.getElem?_set_ne h]

/-- `getD` variant of `List.getElem?_append_left`. -/
theorem getD_append_left {α : Type} {l l' : List α} {j : Nat} {d : α} (h : j < l.length) :
    (l ++ l').getD j d = l.getD j d := by
  simp [List.getD_eq_getElem?_getD, List.getElem?_append_left h]

/-- `getD` at the appended element. -/
theorem getD_concat_length {α : Type} {l : List α} {x d : α} :
    (l ++ [x]).getD l.length d = x := by
  simp [List.getD_eq_getElem?_getD, List.getElem?_concat_length]

/-- `getD` at the appended element, through a `set` of the original list. -/
theorem getD_set_concat {α : Type} {l : List α} {nd x d : α} {p : Nat} :
    ((l.set p nd) ++ [x]).getD l.length d = x := by
  rw [show l.length = (l.set p nd).length by simp, getD_concat_length]

/-- `getD` past the end falls back to the default. -/
theorem getD_of_le {α : Type} {l : List α} {j : Nat} {d : α} (h : l.length ≤ j) :
    l.getD j d = d := by
  simp [List.getD_eq_getElem?_getD, List.getElem?_eq_none h]

/-- Everything `find_word` reports after an `add` is either the freshly added
child (at exactly the added `(parent, byte)` pair) or something `find_word`
already reported before the `add`.  In particular the `0` sentinel written
into a fresh `ManyChildren` row never turns into a false positive. -/
theorem findWord_add {t : Tree} {p k : Nat} (hp : p < t.nodes.length) {p' k' cd : Nat}
    (hf : (t.add p k).2.findWord p' k' = some cd) :
    (p' = p ∧ k' = k ∧ cd = t.nodes.length) ∨ t.findWord p' k' = some cd := by
  unfold Tree.findWord at hf ⊢
  unfold Tree.add at hf
  cases hold : t.nodes.getD p Node.noChild with
  | noChild =>
    rw [hold] at hf
    simp only at hf
    by_cases hpp : p' = p
    · subst hpp
      rw [getD_append_left (by simpa using hp), getD_set_self hp] at hf
      simp only at hf
      split at hf
      · cases hf; exact .inl ⟨rfl, by omega, rfl⟩
      · cases hf
    · rcases Nat.lt_trichotomy p' t.nodes.length with hlt | heq | hgt
      · rw [getD_append_left (by simpa using hlt), getD_set_ne (fun h => hpp h.symm)] at hf
        exact .inr hf
      · rw [heq, getD_set_concat] at hf
        cases hf
      · rw [getD_of_le (by simp; omega)] at hf
        cases hf
  | oneChild k0 c0 =>
    rw [hold] at hf
    simp only at hf
    by_cases hpp : p' = p
    · subst hpp
      rw [getD_append_left (by simpa using hp), getD_set_self hp] at hf
      simp only at hf
      by_cases hkk : k' = k
      · subst hkk
        by_cases hcc : k' < t.codeCount
        · rw [getD_set_self (by simpa using hcc)] at hf
          rw [if_pos (by omega)] at hf
          cases hf
          exact .inl ⟨rfl, rfl, rfl⟩
        · rw [List.set_eq_of_length_le (by simp; omega)] at hf
          by_cases hk0 : k' = k0 ∧ k0 < t.codeCount
          · rw [hk0.1, getD_set_self (by simpa using hk0.2)] at hf
            rw [hk0.1, hold]
            split at hf
            · cases hf; exact .inr (by simp)
            · cases hf
          · have : ((List.replicate t.codeCount 0).set k0 c0).getD k' 0 = 0 := by
              by_cases h1 : k' = k0
              · subst h1
                rw [List.set_eq_of_length_le (by simp; omega)]
                rcases Nat.lt_or_ge k' t.codeCount with h2 | h2
                · exact absurd ⟨rfl, h2⟩ hk0
                · exact getD_of_le (by simpa using h2)
              · rw [getD_set_ne (fun h => h1 h.symm)]
                rcases Nat.lt_or_ge k' t.codeCount with h2 | h2
                · simp [List.getD_eq_getElem?_getD, List.getElem?_replicate, h2]
                · exact getD_of_le (by simpa using h2)
            rw [this] at hf
            simp at hf
      · rw [getD_set_ne (fun h => hkk h.symm)] at hf
        by_cases hk0 : k' = k0 ∧ k0 < t.codeCount
        · rw [hk0.1, getD_set_self (by simpa using hk0.2)] at hf
          rw [hk0.1, hold]
          split at hf
          · cases hf; exact .inr (by simp)
          · cases hf
        · have : (List.replicate t.codeCount (0 : Nat)).getD k' 0 = 0 := by
            rcases Nat.lt_or_ge k' t.codeCount with h2 | h2
            · simp [List.getD_eq_getElem?_getD, List.getElem?_replicate, h2]
            · exact getD_of_le (by simpa using h2)
          by_cases h1 : k' = k0
          · subst h1
            rcases Nat.lt_or_ge k' t.codeCount with h2 | h2
            · exact absurd ⟨rfl, h2⟩ hk0
            · rw [List.set_eq_of_length_le (by simp; omega), this] at hf
              simp at hf
          · rw [getD_set_ne (fun h => h1 h.symm), this] at hf
            simp at hf
    · rcases Nat.lt_trichotomy p' t.nodes.length with hlt | heq | hgt
      · rw [getD_append_left (by simpa using hlt), getD_set_ne (fun h => hpp h.symm)] at hf
        exact .inr hf
      · rw [heq, getD_set_concat] at hf
        cases hf
      · rw [getD_of_le (by simp; omega)] at hf
        cases hf
  | manyChildren ch =>
    rw [hold] at hf
    simp only at hf
    by_cases hpp : p' = p
    · subst hpp
      rw [getD_append_left (by simpa using hp), getD_set_self hp] at hf
      simp only at hf
      by_cases hkk : k' = k
      · subst hkk
        by_cases hcc : k' < ch.length
        · rw [getD_set_self hcc] at hf
          rw [if_pos (by omega)] at hf
          cases hf
          exact .inl ⟨rfl, rfl, rfl⟩
        · rw [List.set_eq_of_length_le (by omega)] at hf
          rw [hold]
          exact .inr hf
      · rw [getD_set_ne (fun h => hkk h.symm)] at hf
        rw [hold]
        exact .inr hf
    · rcases Nat.lt_trichotomy p' t.nodes.length with hlt | heq | hgt
      · rw [getD_append_left (by simpa using hlt), getD_set_ne (fun h => hpp h.symm)] at hf
        exact .inr hf
      · rw [heq, getD_set_concat] at hf
        cases hf
      · rw [getD_of_le (by simp; omega)] at hf
        cases hf

/-- Every node of a freshly reset trie is childless. -/
theorem reset_getD {t : Tree} {p : Nat} :
    t.reset.nodes.getD p Node.noChild = Node.noChild := by
  unfold Tree.reset
  cases hwc : t.withClearCode <;> simp [hwc, getD_replicate]

/-- `find_word` misses on a freshly reset trie. -/
theorem findWord_reset {t : Tree} {p k : Nat} : t.reset.findWord p k = none := by
  unfold Tree.findWord
  rw [reset_getD]

/-- Well-formedness of a trie during a variable encode with code size `cs`:
the arena holds at least the root alphabet and every child `find_word` can
report is a strictly positive index of an existing node. -/
def TreeOk (cs : Nat) (t : Tree) : Prop :=
  t.codeSize = cs ∧ 1 <<< cs ≤ t.nodes.length ∧
  ∀ p k cd, t.findWord p k = some cd → 0 < cd ∧ cd < t.nodes.length

/-- A freshly reset trie is well formed: all nodes are childless. -/
theorem treeOk_reset {cs : Nat} {t : Tree} (h : t.codeSize = cs) : TreeOk cs t.reset := by
  refine ⟨h, ?_, ?_⟩
  · unfold Tree.reset
    split <;> simp [h]
  · intro p k cd hf
    rw [findWord_reset] at hf
    cases hf

/-- `add` preserves trie well-formedness when the parent index is in
bounds. -/
theorem treeOk_add {cs : Nat} {t : Tree} {p k : Nat} (ht : TreeOk cs t)
    (hp : p < t.nodes.length) : TreeOk cs (t.add p k).2 := by
  obtain ⟨hcs, hlen, hbound⟩ := ht
  have hlen' : (t.add p k).2.nodes.length = t.nodes.length + 1 := by
    unfold Tree.add
    cases t.nodes.getD p Node.noChild <;> simp
  refine ⟨hcs, by omega, ?_⟩
  intro p' k' cd hf
  rcases findWord_add hp hf with ⟨_, _, rfl⟩ | hold
  · constructor
    · have := one_shiftLeft_pos cs; omega
    · omega
  · have := hbound _ _ _ hold
    omega

/-- `add` preserves the `codeSize` field and grows the arena by one. -/
theorem add_len {t : Tree} {p k : Nat} :
    (t.add p k).2.nodes.length = t.nodes.length + 1 := by
  unfold Tree.add
  cases t.nodes.getD p Node.noChild <;> simp

/-- A byte within the root alphabet is processed without failure by the
variable encoder step, and the loop invariants (well-formed trie, in-bounds
current prefix) are maintained. -/
theorem encodeStep_ok {e : Endianness} {cs incr : Nat} {s : EncState} {k : Nat}
    (ht : TreeOk cs s.tree) (hp : s.currentPrefix < s.tree.len)
    (hk : ¬((1 <<< cs) - 1 < k)) :
    ∃ s', encodeStep e cs incr s k = .cont s' ∧ TreeOk cs s'.tree ∧
      s'.currentPrefix < s'.tree.len := by
  have hkroot : k < 1 <<< cs := by
    have := one_shiftLeft_pos cs; omega
  unfold encodeStep
  rw [if_neg hk, if_pos hp]
  cases hfw : s.tree.findWord s.currentPrefix k with
  | some word =>
    exact ⟨_, rfl, ht, (ht.2.2 _ _ _ hfw).2⟩
  | none =>
    simp only
    have htadd := @treeOk_add cs s.tree s.currentPrefix k ht hp
    have hpadd : k < (s.tree.add s.currentPrefix k).2.len := by
      unfold Tree.len
      rw [add_len]
      have := ht.2.1
      omega
    split
    · split
      · exact ⟨_, rfl, htadd, hpadd⟩
      · refine ⟨_, rfl, treeOk_reset ?_, ?_⟩
        · exact ht.1
        · have hacsz : (s.tree.add s.currentPrefix k).2.codeSize = cs := by
            unfold Tree.add
            cases s.tree.nodes.getD s.currentPrefix Node.noChild <;> simp [ht.1]
          unfold Tree.len Tree.reset
          split <;> simp [hacsz] <;> omega
    · exact ⟨_, rfl, htadd, hpadd⟩

/-- If any byte of the remaining input exceeds the root alphabet, the
variable encoder loop fails with the unexpected-byte error carrying the
first such byte and the code size. -/
theorem encodeLoop_tail_error {e : Endianness} {cs incr v : Nat} :
    ∀ (rest : List Nat) (s : EncState),
    TreeOk cs s.tree → s.currentPrefix < s.tree.len →
    rest.find? (fun b => decide ((1 <<< cs) - 1 < b)) = some v →
    encodeLoop e cs incr s rest = .failed (.unexpectedCode v cs) := by
  intro rest
  induction rest with
  | nil => intro s _ _ h; cases h
  | cons b rest ih =>
    intro s ht hp hfind
    by_cases hb : (1 <<< cs) - 1 < b
    · have hv : v = b := by
        rw [List.find?_cons_of_pos _ (by simpa using hb)] at hfind
        cases hfind; rfl
      subst hv
      rw [encodeLoop]
      have hstep : encodeStep e cs incr s v = .failed (.unexpectedCode v cs) := by
        unfold encodeStep
        rw [if_pos hb]
      rw [hstep]
    · obtain ⟨s', hstep, ht', hp'⟩ := @encodeStep_ok e cs incr s b ht hp hb
      rw [encodeLoop, hstep]
      rw [List.find?_cons_of_neg _ (by simpa using hb)] at hfind
      exact ih s' ht' hp' hfind

/-- Claim C3, amended.  If the first input byte is within the root alphabet
and some later byte `≥ 2^c` occurs, the variable encoder fails with the
unexpected-byte error carrying the first such later byte and the code size.
(The first byte itself is exempt: see `c3_first_byte_not_validated`.) -/
theorem c3_oversized_tail_byte_rejected {e : Endianness} {strategy : CodeSizeStrategy}
    {cs k0 v : Nat} {rest : List Nat}
    (h2 : 2 ≤ cs) (h8 : cs ≤ 8) (hk0 : k0 < 1 <<< cs)
    (hbad : rest.find? (fun b => decide ((1 <<< cs) - 1 < b)) = some v) :
    VariableEncoder.innerEncode e (k0 :: rest) cs strategy =
      .failed (.unexpectedCode v cs) := by
  unfold VariableEncoder.innerEncode
  rw [if_neg (by omega)]
  simp only
  rw [encodeLoop_tail_error rest _ ?_ ?_ hbad]
  · exact treeOk_reset rfl
  · unfold Tree.len Tree.reset Tree.new
    simp
    omega

/-- Witness for the amended C3: `code_size = 2`, input `[0, 5]` — the `5` in
second position triggers `UnexpectedCode 5 2`. -/
theorem c3_oversized_tail_byte_rejected_witness :
    VariableEncoder.innerEncode .littleEndian [0, 5] 2 .default =
      .failed (.unexpectedCode 5 2) :=
  c3_oversized_tail_byte_rejected (by decide) (by decide) (by decide) (by decide)

/-- Trie states reachable from `reset` by a sequence of `add(parent, byte)`
calls as performed during encoding (the parent is an existing node and the
byte lies inside the alphabet), together with the trace of
`(parent, byte, returned code)` triples of those calls. -/
inductive TreeReach (cs : Nat) (withClear : Bool) : Tree → List (Nat × Nat × Nat) → Prop
  | reset : TreeReach cs withClear ((Tree.new cs withClear).reset) []
  | add {t : Tree} {tr : List (Nat × Nat × Nat)} (p k : Nat) :
      TreeReach cs withClear t tr → p < t.nodes.length → k < t.codeCount →
      TreeReach cs withClear (t.add p k).2 (tr ++ [(p, k, (t.add p k).1)])

/-- Induction package for reachable tries: the arena never shrinks below the
alphabet, `find_word` only reports traced children, and every traced child
code is at least the alphabet size. -/
theorem treeReach_spec {cs : Nat} {wc : Bool} {t : Tree} {tr : List (Nat × Nat × Nat)}
    (h : TreeReach cs wc t tr) :
    1 <<< cs ≤ t.nodes.length ∧
    (∀ p k cd, t.findWord p k = some cd → (p, k, cd) ∈ tr) ∧
    (∀ x ∈ tr, 1 <<< cs ≤ x.2.2) := by
  induction h with
  | reset =>
    refine ⟨?_, ?_, by simp⟩
    · unfold Tree.reset Tree.new
      split <;> simp
    · intro p k cd hf
      rw [findWord_reset] at hf
      cases hf
  | add p k hreach hp hk ih =>
    obtain ⟨ihlen, ihfind, ihcode⟩ := ih
    refine ⟨by rw [add_len]; omega, ?_, ?_⟩
    · intro p' k' cd hf
      rcases findWord_add hp hf with ⟨rfl, rfl, rfl⟩ | hold
      · exact List.mem_append_right _ (List.mem_singleton.mpr rfl)
      · exact List.mem_append_left _ (ihfind _ _ _ hold)
    · intro x hx
      rcases List.mem_append.mp hx with hx | hx
      · exact ihcode _ hx
      · rcases List.mem_singleton.mp hx with rfl
        simpa using ihlen

/-- Claim C9.  For every trie state reachable from `reset` by `add` calls as
performed during encoding, `find(parent, byte) = some code` implies that an
`add(parent, byte)` call previously returned exactly that code since the
last reset, and the code is at least the alphabet size `2^c` — hence
nonzero, so the `0` sentinel of `ManyChildren` rows never produces a false
positive. -/
theorem c9_find_only_added {cs : Nat} {wc : Bool} {t : Tree}
    {tr : List (Nat × Nat × Nat)} (hreach : TreeReach cs wc t tr) {p k cd : Nat}
    (hf : t.findWord p k = some cd) :
    (p, k, cd) ∈ tr ∧ 1 <<< cs ≤ cd ∧ 0 < cd := by
  have hs := treeReach_spec hreach
  have hm := hs.2.1 _ _ _ hf
  have hc := hs.2.2 _ hm
  exact ⟨hm, hc, lt_of_lt_of_le (one_shiftLeft_pos cs) hc⟩

/-- Witness for C9: from a fresh `c = 2` trie, one `add(0, 1)` returns 6,
and `find(0, 1)` afterwards reports exactly that traced child. -/
theorem c9_find_only_added_witness :
    ((0, 1, 6) : Nat × Nat × Nat) ∈ [((0, 1, 6) : Nat × Nat × Nat)] ∧
      1 <<< 2 ≤ 6 ∧ 0 < 6 :=
  c9_find_only_added
    (@TreeReach.add 2 true ((Tree.new 2 true).reset) [] 0 1
      (@TreeReach.reset 2 true) (by decide) (by decide))
    (by decide)

/-- Claim C8, amended.  Whenever a previous code exists, the variable
decoder step fails with `UnexpectedCode code` exactly on a read code
strictly greater than the next expected dictionary index (first conjunct),
and no step ever produces that error for a read code less than or equal to
the next expected index (second conjunct).  A code read while no previous
code exists is not compared against the next index at all
(`c8_first_code_unvalidated`). -/
theorem c8_unexpected_code_characterized :
    (∀ (e : Endianness) (cs incr : Nat) (s : DecState) (pc code : Nat) (reader' : Reader),
      readOne e s.readSize s.reader = some (code, reader') →
      s.previousCode = some pc →
      code ≠ 1 <<< cs → code ≠ (1 <<< cs) + 1 →
      s.nextIndex < code →
      decodeStep e cs incr s = .failed (.unexpectedCode code)) ∧
    (∀ (e : Endianness) (cs incr : Nat) (s : DecState) (code v : Nat) (reader' : Reader),
      readOne e s.readSize s.reader = some (code, reader') →
      code ≤ s.nextIndex →
      decodeStep e cs incr s ≠ .failed (.unexpectedCode v)) := by
  constructor
  · intro e cs incr s pc code reader' hread hprev hclear heoi hgt
    unfold decodeStep
    rw [hread]
    simp only [decodeProcess]
    rw [if_neg hclear, if_neg heoi, hprev]
    simp only
    rw [if_pos hgt]
  · intro e cs incr s code v reader' hread hle h
    unfold decodeStep at h
    rw [hread] at h
    simp only [decodeProcess] at h
    split at h
    · cases h
    · split at h
      · cases h
      · split at h
        · split at h
          · cases h
          · cases h
        · split at h
          · next hgt => omega
          · split at h
            · cases h
            · split at h
              · split at h
                · split at h
                  · cases h
                  · cases h
                · simp at h
              · cases h

/-- A decoder state mid-stream: previous code 0, one-byte word on the stack,
the remaining source given by `bytes`. -/
def c8State (bytes : List Nat) : DecState :=
  { initDecState 2 0 bytes with previousCode := some 0, wordLength := 1, output := [0] }

/-- Witness for the amended C8: with a previous code present, reading code 7
(> next index 6) fails with `UnexpectedCode 7`, while reading code 3
(≤ next index) never produces that error. -/
theorem c8_unexpected_code_characterized_witness :
    decodeStep .littleEndian 2 0 (c8State [0x07]) = .failed (.unexpectedCode 7) ∧
    decodeStep .littleEndian 2 0 (c8State [0x03]) ≠ .failed (.unexpectedCode 7) := by
  constructor
  · exact c8_unexpected_code_characterized.1 .littleEndian 2 0 _ 0 7 ⟨5, 0, []⟩
      (by decide) rfl (by decide) (by decide) (by decide)
  · exact c8_unexpected_code_characterized.2 .littleEndian 2 0 _ 3 7 ⟨5, 0, []⟩
      (by decide) (by decide)

/-- A reader over a source extended with further bytes. -/
def extendR (r : Reader) (ys : List Nat) : Reader :=
  { r with input := r.input ++ ys }

/-- A decoder state whose source is extended with further bytes. -/
def extendS (s : DecState) (ys : List Nat) : DecState :=
  { s with reader := extendR s.reader ys }

/-- A successful little-endian refill is unaffected by bytes appended after
the portion it consumes. -/
theorem refillLE_append {amount : Nat} :
    ∀ {input : List Nat} {cursor buffer : Nat} {r' : Reader},
    refillLE amount cursor buffer input = some r' → ∀ ys,
    refillLE amount cursor buffer (input ++ ys) = some (extendR r' ys) := by
  intro input
  induction input with
  | nil =>
    intro cursor buffer r' h ys
    rw [refillLE.eq_def] at h
    rw [List.nil_append, refillLE.eq_def]
    dsimp only at h ⊢
    by_cases hc : cursor < amount
    · rw [if_pos hc] at h
      simp at h
    · rw [if_neg hc] at h
      rw [if_neg hc]
      cases h
      rfl
  | cons b rest ih =>
    intro cursor buffer r' h ys
    rw [refillLE.eq_def] at h
    rw [List.cons_append, refillLE.eq_def]
    dsimp only at h ⊢
    by_cases hc : cursor < amount
    · rw [if_pos hc] at h
      rw [if_pos hc]
      have h' : refillLE amount (cursor + 8) ((buffer ||| b <<< cursor) % 2 ^ 32) rest =
          some r' := h
      exact ih h' ys
    · rw [if_neg hc] at h
      rw [if_neg hc]
      cases h
      rfl

/-- Big-endian analogue of `refillLE_append`. -/
theorem refillBE_append {amount : Nat} :
    ∀ {input : List Nat} {cursor buffer : Nat} {r' : Reader},
    refillBE amount cursor buffer input = some r' → ∀ ys,
    refillBE amount cursor buffer (input ++ ys) = some (extendR r' ys) := by
  intro input
  induction input with
  | nil =>
    intro cursor buffer r' h ys
    rw [refillBE.eq_def] at h
    rw [List.nil_append, refillBE.eq_def]
    dsimp only at h ⊢
    by_cases hc : cursor < amount
    · rw [if_pos hc] at h
      simp at h
    · rw [if_neg hc] at h
      rw [if_neg hc]
      cases h
      rfl
  | cons b rest ih =>
    intro cursor buffer r' h ys
    rw [refillBE.eq_def] at h
    rw [List.cons_append, refillBE.eq_def]
    dsimp only at h ⊢
    by_cases hc : cursor < amount
    · rw [if_pos hc] at h
      rw [if_pos hc]
      have h' : refillBE amount (cursor + 8) ((buffer ||| b <<< (24 - cursor)) % 2 ^ 32) rest =
          some r' := h
      exact ih h' ys
    · rw [if_neg hc] at h
      rw [if_neg hc]
      cases h
      rfl

/-- A successful `read_one` is unaffected by bytes appended after the
portion it consumes. -/
theorem readOne_append {e : Endianness} {amount : Nat} {r : Reader} {code : Nat}
    {r' : Reader} (h : readOne e amount r = some (code, r')) (ys : List Nat) :
    readOne e amount (extendR r ys) = some (code, extendR r' ys) := by
  cases e <;> simp only [readOne, extendR] at h ⊢
  · cases hq : refillBE amount r.cursor r.buffer r.input with
    | none => rw [hq] at h; cases h
    | some q =>
      rw [hq] at h
      cases h
      rw [refillBE_append hq ys]
      rfl
  · cases hq : refillLE amount r.cursor r.buffer r.input with
    | none => rw [hq] at h; cases h
    | some q =>
      rw [hq] at h
      cases h
      rw [refillLE_append hq ys]
      rfl

/-- `decodeProcess` stores the post-read reader without inspecting it, so
extending the untouched remainder of the source commutes with it. -/
theorem decodeProcess_extend (cs incr : Nat) (s : DecState) (code : Nat)
    (reader' : Reader) (ys : List Nat) :
    decodeProcess cs incr (extendS s ys) code (extendR reader' ys) =
      match decodeProcess cs incr s code reader' with
      | .cont s' => .cont (extendS s' ys)
      | .finished out => .finished out
      | .failed e => .failed e
      | .panicked => .panicked := by
  simp only [decodeProcess, extendS, extendR]
  split
  · rfl
  · split
    · rfl
    · split
      · split
        · rfl
        · rfl
      · split
        · rfl
        · split
          · rfl
          · split
            · split
              · split
                · rfl
                · rfl
              · rfl
            · rfl

/-- The decode loop on a source with trailing extra bytes: every outcome the
original loop produces, short of running dry, is reproduced verbatim. -/
theorem decodeLoopF_extend (e : Endianness) (cs incr : Nat) :
    ∀ (fuel : Nat) (s : DecState) (ys : List Nat) (out : List Nat),
    decodeLoopF e cs incr fuel s = .ok out →
    decodeLoopF e cs incr fuel (extendS s ys) = .ok out := by
  intro fuel
  induction fuel with
  | zero => intro s ys out h; cases h
  | succ fuel ih =>
    intro s ys out h
    rw [decodeLoopF] at h ⊢
    cases hread : readOne e s.readSize s.reader with
    | none =>
      unfold decodeStep at h
      rw [hread] at h
      cases h
    | some cr =>
      obtain ⟨code, reader'⟩ := cr
      have hreadx : readOne e (extendS s ys).readSize (extendS s ys).reader =
          some (code, extendR reader' ys) := readOne_append hread ys
      unfold decodeStep at h ⊢
      rw [hread] at h
      dsimp only at h
      rw [hreadx]
      dsimp only
      rw [decodeProcess_extend]
      cases hp : decodeProcess cs incr s code reader' with
      | cont s' =>
        rw [hp] at h
        exact ih s' ys out h
      | finished out' => rw [hp] at h; exact h
      | failed err => rw [hp] at h; cases h
      | panicked => rw [hp] at h; cases h

/-- More fuel never changes a successful decode. -/
theorem decodeLoopF_mono_succ (e : Endianness) (cs incr : Nat) :
    ∀ (fuel : Nat) (s : DecState) (out : List Nat),
    decodeLoopF e cs incr fuel s = .ok out →
    decodeLoopF e cs incr (fuel + 1) s = .ok out := by
  intro fuel
  induction fuel with
  | zero => intro s out h; cases h
  | succ fuel ih =>
    intro s out h
    rw [decodeLoopF] at h ⊢
    cases hstep : decodeStep e cs incr s with
    | cont s' => rw [hstep] at h; exact ih s' out h
    | finished out' => rw [hstep] at h; exact h
    | failed err => rw [hstep] at h; cases h
    | panicked => rw [hstep] at h; cases h

/-- More fuel never changes a successful decode (general form). -/
theorem decodeLoopF_mono (e : Endianness) (cs incr : Nat) {fuel fuel' : Nat}
    {s : DecState} {out : List Nat} (hle : fuel ≤ fuel')
    (h : decodeLoopF e cs incr fuel s = .ok out) :
    decodeLoopF e cs incr fuel' s = .ok out := by
  induction fuel' with
  | zero =>
    have : fuel = 0 := by omega
    subst this
    exact h
  | succ fuel' ih =>
    rcases Nat.lt_or_ge fuel (fuel' + 1) with hlt | hge
    · exact decodeLoopF_mono_succ e cs incr fuel' s out (ih (by omega))
    · have : fuel = fuel' + 1 := by omega
      subst this
      exact h

/-- Claim C10.  Reading the end-of-information code makes the variable
decoder return success with the sink flushed immediately (first conjunct),
and no byte after those already consumed is ever read or validated:
appending arbitrary garbage to a successfully decoded stream leaves the
result unchanged (second conjunct). -/
theorem c10_trailing_garbage_ignored :
    (∀ (e : Endianness) (cs incr : Nat) (s : DecState) (code : Nat) (reader' : Reader),
      readOne e s.readSize s.reader = some (code, reader') →
      code = (1 <<< cs) + 1 →
      decodeStep e cs incr s = .finished s.output) ∧
    (∀ (e : Endianness) (codeSize : Nat) (strategy : CodeSizeStrategy)
      (X Y out : List Nat),
      VariableDecoder.innerDecode e X codeSize strategy = .ok out →
      VariableDecoder.innerDecode e (X ++ Y) codeSize strategy = .ok out) := by
  constructor
  · intro e cs incr s code reader' hread heoi
    unfold decodeStep
    rw [hread]
    simp only [decodeProcess]
    rw [if_neg (by have := one_shiftLeft_pos cs; omega), if_pos heoi]
  · intro e codeSize strategy X Y out h
    unfold VariableDecoder.innerDecode at h ⊢
    split at h
    · cases h
    · rw [if_neg (by assumption)]
      have hinit : initDecState codeSize strategy.increment (X ++ Y) =
          extendS (initDecState codeSize strategy.increment X) Y := rfl
      rw [hinit]
      exact decodeLoopF_mono e codeSize strategy.increment
        (by rw [List.length_append]; omega)
        (decodeLoopF_extend e codeSize strategy.increment _ _ Y out h)

/-- Witness for C10: the two-byte GIF stream `[0x04, 0x0A]` (codes CLEAR, 0,
0, EOI at `c = 2`) decodes to `[0, 0]`, and stays `[0, 0]` with a garbage
byte appended; reading EOI finishes immediately from a fresh state. -/
theorem c10_trailing_garbage_ignored_witness :
    decodeStep .littleEndian 2 0 (initDecState 2 0 [0x05]) = .finished [] ∧
    VariableDecoder.innerDecode .littleEndian ([0x04, 0x0A] ++ [0xAB]) 2 .default =
      .ok [0, 0] := by
  constructor
  · exact c10_trailing_garbage_ignored.1 .littleEndian 2 0 _ 5 ⟨5, 0, []⟩
      (by decide) (by decide)
  · exact c10_trailing_garbage_ignored.2 .littleEndian 2 .default [0x04, 0x0A] [0xAB]
      [0, 0] (by decide)

/-! ## Width schedule shared by encoder and decoder (claim C5)

Between CLEARs, the variable encoder performs exactly one `add` per emitted
data code (so `tree.len = CLEAR + 2 + #codes emitted`), and the variable
decoder performs exactly one install per code read after the first (so
`next_index = CLEAR + 1 + #codes read`).  Both sides bump their width with
the same rule, so both the width at which the encoder writes the n-th data
code since a CLEAR and the width at which the decoder reads that same code
equal `widthF (n - 1)`: the switch to `w + 1` bits happens at the same
position of the code stream.  For GIF (`increment = 0`) the bump follows
the `add` that creates encoder entry `1 << w`, which is the code whose
processing installs decoder entry `(1 << w) - 1`; for TIFF (`increment =
1`) both are one entry earlier, i.e. decoder entry `(1 << w) - 2`. -/

/-- Width after `n` dictionary-growth events since the last CLEAR: starts at
`c + 1` and bumps by one whenever the table size `2^c + 2 + n` hits
`(1 << w) - increment` while `w < 12` (encoder.rs lines 326-335, decoder.rs
lines 272-275). -/
def widthF (cs incr : Nat) : Nat → Nat
  | 0 => cs + 1
  | n + 1 =>
    if widthF cs incr n < 12 ∧ (1 <<< cs) + 2 + n = (1 <<< widthF cs incr n) - incr
    then widthF cs incr n + 1 else widthF cs incr n

/-- `add` returns the arena length. -/
theorem add_fst {t : Tree} {p k : Nat} : (t.add p k).1 = t.nodes.length := rfl

/-- `add` keeps the `code_size` field. -/
theorem add_codeSize {t : Tree} {p k : Nat} : (t.add p k).2.codeSize = t.codeSize := rfl

/-- `add` keeps the `with_clear_code` field. -/
theorem add_withClearCode {t : Tree} {p k : Nat} :
    (t.add p k).2.withClearCode = t.withClearCode := rfl

/-- Length of a reset trie. -/
theorem reset_len {t : Tree} :
    t.reset.len = if t.withClearCode then (1 <<< t.codeSize) + 2 else 1 <<< t.codeSize := by
  unfold Tree.reset Tree.len
  split <;> simp [*]

/-- Encoder states reachable inside `VariableEncoder::inner_encode`: the
state entering the loop (any first byte `k`), closed under loop steps. -/
inductive EncReach (e : Endianness) (cs incr : Nat) : EncState → Prop
  | init (k : Nat) :
      EncReach e cs incr
        { tree := (Tree.new cs true).reset,
          writer := writeBits e Writer.new (1 <<< cs) (cs + 1),
          writeSize := cs + 1,
          sizeIncreaseMask := (1 <<< (cs + 1)) - incr,
          currentPrefix := k }
  | step {s s' : EncState} (k : Nat) :
      EncReach e cs incr s → encodeStep e cs incr s k = .cont s' → EncReach e cs incr s'

/-- The width invariant of encoder states. -/
def EncWidthInv (cs incr : Nat) (s : EncState) : Prop :=
  s.tree.codeSize = cs ∧ s.tree.withClearCode = true ∧
  (1 <<< cs) + 2 ≤ s.tree.len ∧
  s.writeSize = widthF cs incr (s.tree.len - ((1 <<< cs) + 2)) ∧
  s.sizeIncreaseMask = (1 <<< s.writeSize) - incr

/-- One encoder loop step preserves the width invariant. -/
theorem encodeStep_widthInv {e : Endianness} {cs incr : Nat} {s s' : EncState} {k : Nat}
    (hstep : encodeStep e cs incr s k = .cont s') (ih : EncWidthInv cs incr s) :
    EncWidthInv cs incr s' := by
  obtain ⟨ihcs, ihwc, ihlen, ihws, ihmask⟩ := ih
  simp only [encodeStep] at hstep
  split at hstep
  · cases hstep
  · split at hstep
    · split at hstep
      · cases hstep
        exact ⟨ihcs, ihwc, ihlen, ihws, ihmask⟩
      · split at hstep
        · split at hstep
          · -- width bump: new entry index hit the mask, writeSize < 12
            cases hstep
            refine ⟨by rw [add_codeSize]; exact ihcs,
                    by rw [add_withClearCode]; exact ihwc, ?_, ?_, rfl⟩
            · unfold Tree.len
              rw [add_len]
              unfold Tree.len at ihlen
              omega
            · next hmask hws =>
              rw [add_fst] at hmask
              unfold Tree.len at ihlen ihws ⊢
              rw [add_len]
              have hn : s.tree.nodes.length + 1 - ((1 <<< cs) + 2) =
                  (s.tree.nodes.length - ((1 <<< cs) + 2)) + 1 := by omega
              rw [hn, widthF, ← ihws]
              rw [if_pos ⟨hws, by omega⟩]
          · -- saturation at writeSize 12: CLEAR emitted, trie reset
            cases hstep
            have hrlen : (s.tree.add s.currentPrefix k).2.reset.len = (1 <<< cs) + 2 := by
              rw [reset_len, add_codeSize, add_withClearCode, ihwc, ihcs]
              simp
            refine ⟨ihcs, ihwc, hrlen.ge, ?_, rfl⟩
            show cs + 1 =
              widthF cs incr ((s.tree.add s.currentPrefix k).2.reset.len - ((1 <<< cs) + 2))
            rw [hrlen]
            simp [widthF]
        · -- no bump: new entry index below the mask
          cases hstep
          refine ⟨by rw [add_codeSize]; exact ihcs,
                  by rw [add_withClearCode]; exact ihwc, ?_, ?_, ihmask⟩
          · unfold Tree.len
            rw [add_len]
            unfold Tree.len at ihlen
            omega
          · next hmask =>
            rw [add_fst] at hmask
            unfold Tree.len at ihlen ihws ⊢
            rw [add_len]
            have hn : s.tree.nodes.length + 1 - ((1 <<< cs) + 2) =
                (s.tree.nodes.length - ((1 <<< cs) + 2)) + 1 := by omega
            rw [hn, widthF, if_neg]
            · exact ihws
            · rintro ⟨-, habs⟩
              rw [← ihws] at habs
              rw [← ihmask] at habs
              omega
    · cases hstep

/-- Every reachable encoder state satisfies the width invariant. -/
theorem encReach_widthInv {e : Endianness} {cs incr : Nat} {s : EncState}
    (h : EncReach e cs incr s) : EncWidthInv cs incr s := by
  induction h with
  | init k =>
    refine ⟨rfl, rfl, ?_, ?_, rfl⟩
    · rw [show ((Tree.new cs true).reset).len = (1 <<< cs) + 2 by rw [reset_len]; rfl]
    · rw [show ((Tree.new cs true).reset).len = (1 <<< cs) + 2 by rw [reset_len]; rfl]
      simp [widthF]
  | step k hreach hstep ih => exact encodeStep_widthInv hstep ih

/-- Decoder states reachable inside `VariableDecoder::inner_decode`. -/
inductive DecReach (e : Endianness) (cs incr : Nat) : DecState → Prop
  | init (data : List Nat) : DecReach e cs incr (initDecState cs incr data)
  | step {s s' : DecState} :
      DecReach e cs incr s → decodeStep e cs incr s = .cont s' → DecReach e cs incr s'

/-- The width invariant of decoder states. -/
def DecWidthInv (cs incr : Nat) (s : DecState) : Prop :=
  (1 <<< cs) + 2 ≤ s.nextIndex ∧
  s.readSize = widthF cs incr (s.nextIndex - ((1 <<< cs) + 1)) ∧
  s.sizeIncreaseMask = (1 <<< s.readSize) - incr

/-- With a valid code size the schedule does not bump at the very first
table size `2^c + 2` (that would need `2^c = 2 + increment`). -/
theorem widthF_one {cs incr : Nat} (h2 : 2 ≤ cs) (hincr : incr ≤ 1) :
    widthF cs incr 1 = cs + 1 := by
  have h4 : 4 ≤ 1 <<< cs := by
    rw [Nat.one_shiftLeft]
    calc 4 = 2 ^ 2 := by decide
    _ ≤ 2 ^ cs := Nat.pow_le_pow_right (by decide) h2
  rw [show (1 : Nat) = 0 + 1 by rfl, widthF, widthF]
  rw [if_neg]
  rintro ⟨-, habs⟩
  have : (1 : Nat) <<< (cs + 1) = 2 * (1 <<< cs) := by
    rw [Nat.one_shiftLeft, Nat.one_shiftLeft, Nat.pow_succ]
    omega
  omega

/-- One decoder loop step preserves the width invariant. -/
theorem decodeStep_widthInv {e : Endianness} {cs incr : Nat} {s s' : DecState}
    (h2 : 2 ≤ cs) (hincr : incr ≤ 1)
    (hstep : decodeStep e cs incr s = .cont s') (ih : DecWidthInv cs incr s) :
    DecWidthInv cs incr s' := by
  obtain ⟨ihnext, ihrs, ihmask⟩ := ih
  obtain ⟨code, reader', hread, hproc⟩ := decodeStep_cont hstep
  simp only [decodeProcess] at hproc
  split at hproc
  · -- CLEAR
    cases hproc
    refine ⟨Nat.le.refl, ?_, rfl⟩
    show cs + 1 = widthF cs incr ((1 <<< cs) + 2 - ((1 <<< cs) + 1))
    rw [show (1 <<< cs) + 2 - ((1 <<< cs) + 1) = 1 by omega, widthF_one h2 hincr]
  · split at hproc
    · cases hproc
    · split at hproc
      · split at hproc
        · cases hproc
          exact ⟨ihnext, ihrs, ihmask⟩
        · cases hproc
      · split at hproc
        · cases hproc
        · split at hproc
          · cases hproc
          · split at hproc
            · split at hproc
              · split at hproc
                · -- install
                  cases hproc
                  have hn : s.nextIndex + 1 - ((1 <<< cs) + 1) =
                      (s.nextIndex - ((1 <<< cs) + 1)) + 1 := by omega
                  by_cases hbump : s.nextIndex + 1 = s.sizeIncreaseMask ∧ s.readSize < 12
                  · refine ⟨(by omega : (1 <<< cs) + 2 ≤ s.nextIndex + 1), ?_, ?_⟩
                    · simp only [hn, if_pos hbump]
                      rw [widthF, if_pos]
                      · omega
                      · constructor
                        · omega
                        · have : (1 <<< cs) + 2 + (s.nextIndex - ((1 <<< cs) + 1)) =
                              s.nextIndex + 1 := by omega
                          rw [this, ← ihrs, ← ihmask]
                          exact hbump.1
                    · simp only [if_pos hbump]
                  · refine ⟨(by omega : (1 <<< cs) + 2 ≤ s.nextIndex + 1), ?_, ?_⟩
                    · simp only [hn, if_neg hbump]
                      rw [widthF, if_neg]
                      · exact ihrs
                      · rintro ⟨hlt, habs⟩
                        have : (1 <<< cs) + 2 + (s.nextIndex - ((1 <<< cs) + 1)) =
                            s.nextIndex + 1 := by omega
                        rw [this, ← ihrs] at habs
                        exact hbump ⟨by rw [← ihmask] at habs; exact habs, by omega⟩
                    · simp only [if_neg hbump]
                      exact ihmask
                · cases hproc
              · cases hproc
            · cases hproc

/-- Every reachable decoder state satisfies the width invariant. -/
theorem decReach_widthInv {e : Endianness} {cs incr : Nat} {s : DecState}
    (h2 : 2 ≤ cs) (hincr : incr ≤ 1) (h : DecReach e cs incr s) :
    DecWidthInv cs incr s := by
  induction h with
  | init data =>
    refine ⟨by simp [initDecState], ?_, rfl⟩
    show cs + 1 = widthF cs incr ((1 <<< cs) + 2 - ((1 <<< cs) + 1))
    rw [show (1 <<< cs) + 2 - ((1 <<< cs) + 1) = 1 by omega, widthF_one h2 hincr]
  | step hreach hstep ih => exact decodeStep_widthInv h2 hincr hstep ih

/-- Claim C5.  The variable encoder's write width and the variable decoder's
read width follow the same schedule `widthF` of the number of dictionary
growth events since the last CLEAR: in every reachable encoder state the
write width is `widthF (tree.len - (CLEAR + 2))` (one add per emitted code),
and in every reachable decoder state the read width is
`widthF (next_index - (CLEAR + 1))` (one install per code read after the
first).  Hence the n-th data code after a CLEAR is written and read at the
same width `widthF (n - 1)`, and both sides switch to `w + 1` bits at the
same point of the code stream: for GIF right after the code that installs
decoder entry `(1 << w) - 1` (encoder add `1 << w`), for TIFF one code
earlier (decoder entry `(1 << w) - 2`). -/
theorem c5_width_bump_alignment (e : Endianness) (cs : Nat)
    (strategy : CodeSizeStrategy) (h2 : 2 ≤ cs) (h8 : cs ≤ 8) :
    (∀ s : EncState, EncReach e cs strategy.increment s →
      s.writeSize = widthF cs strategy.increment (s.tree.len - ((1 <<< cs) + 2))) ∧
    (∀ s : DecState, DecReach e cs strategy.increment s →
      s.readSize = widthF cs strategy.increment (s.nextIndex - ((1 <<< cs) + 1))) := by
  have hincr : strategy.increment ≤ 1 := by cases strategy <;> decide
  exact ⟨fun s h => (encReach_widthInv h).2.2.2.1,
         fun s h => (decReach_widthInv h2 hincr h).2.1⟩

/-- The GIF `c = 2` encoder state entering the loop with first byte 0. -/
def c5EncState : EncState :=
  { tree := (Tree.new 2 true).reset,
    writer := writeBits .littleEndian Writer.new (1 <<< 2) 3,
    writeSize := 2 + 1, sizeIncreaseMask := (1 <<< (2 + 1)) - 0,
    currentPrefix := 0 }

/-- Witness for C5 at the initial states (GIF, `c = 2`). -/
theorem c5_width_bump_alignment_witness :
    c5EncState.writeSize = widthF 2 0 (c5EncState.tree.len - ((1 <<< 2) + 2)) ∧
    (initDecState 2 0 []).readSize =
      widthF 2 0 ((initDecState 2 0 []).nextIndex - ((1 <<< 2) + 1)) := by
  constructor
  · exact (c5_width_bump_alignment .littleEndian 2 .default (by decide) (by decide)).1 _
      (EncReach.init 0)
  · exact (c5_width_bump_alignment .littleEndian 2 .default (by decide) (by decide)).2 _
      (DecReach.init [])

end Salzweg
